import Mathlib

/-!
Verification of `src/binary-gap.cpp` (binary-gap solver plus its
count-trailing-zeros primitives), shallowly embedded over `Nat`.
All machine arithmetic is on 32-bit unsigned values, modelled as `Nat`
with explicit `% 2^32` wherever C++ overflow or wraparound can occur.
-/

namespace BinaryGap

/-! ### Reference (specification-side) trailing-bit counters -/

/-- Number of trailing zero bits of `x` (junk value `0` at `x = 0`);
the mathematical reference the source's CTZ variants are compared to. -/
def tzRef (x : Nat) : Nat :=
  if h : x = 0 ∨ x % 2 = 1 then 0
  else tzRef (x / 2) + 1
termination_by x
decreasing_by
  push_neg at h
  exact Nat.div_lt_self (Nat.pos_of_ne_zero h.1) (by omega)

/-- Number of trailing one bits of `x`. -/
def oRef (x : Nat) : Nat :=
  if h : x % 2 = 1 then oRef (x / 2) + 1
  else 0
termination_by x
decreasing_by
  exact Nat.div_lt_self (by omega) (by omega)

/-! ### Source embedding: the CTZ variants

`ctz_simple`, `popcnt`/`ctz_bits`, `ctz_bsearch`, `ctz_debruijn` are the
four software implementations in `binary-gap.cpp` lines 47-153. -/

/-- The body of `ctz_simple`'s `for` loop (lines 50-54): test bit 0,
shift right, count up to the bit width (32). -/
def ctz_simple_go (x bit : Nat) : Nat :=
  if _h : bit < 32 then
    if x &&& 1 = 1 then bit
    else ctz_simple_go (x >>> 1) (bit + 1)
  else 32
termination_by 32 - bit

/-- `ctz_simple` (lines 47-56): linear scan over the 32 bit positions. -/
def ctz_simple (x : Nat) : Nat := ctz_simple_go x 0

/-- `broadcast<T>(x) = (~T(0) / 0xff) * x` for `T` = 32-bit unsigned
(lines 61-67). -/
def broadcast (x : Nat) : Nat := ((2 ^ 32 - 1) / 0xff) * x

/-- `popcnt` (lines 71-92): SWAR population count on a 32-bit word.
Every C++ operation is on `unsigned`, hence the explicit `% 2 ^ 32`;
`x -= e` is modelled as `(x + 2 ^ 32 - e) % 2 ^ 32` to keep the
unsigned wraparound semantics. -/
def popcnt (x : Nat) : Nat :=
  let b_0x01 := broadcast 0x01
  let b_0x55 := broadcast 0x55
  let b_0x33 := broadcast 0x33
  let b_0x0f := broadcast 0x0f
  let x1 := (x + 2 ^ 32 - ((x >>> 1) &&& b_0x55)) % 2 ^ 32
  let x2 := ((x1 &&& b_0x33) + ((x1 >>> 2) &&& b_0x33)) % 2 ^ 32
  let x3 := ((x2 + (x2 >>> 4)) % 2 ^ 32) &&& b_0x0f
  ((x3 * b_0x01) % 2 ^ 32) >>> 24

/-- `ctz_bits` (lines 96-100): `popcnt((x & -x) - 1)`.  On `unsigned`,
`-x` is `(2^32 - x) % 2^32` and the `- 1` wraps at `x = 0`, hence the
`+ 2^32 - 1` followed by `% 2^32`. -/
def ctz_bits (x : Nat) : Nat :=
  popcnt (((x &&& ((2 ^ 32 - x) % 2 ^ 32)) + 2 ^ 32 - 1) % 2 ^ 32)

/-- One `if ((x & mask) == 0) { n += w; x >>= w; }` block of
`ctz_bsearch`, acting on the pair `(n, x)`; `mask = 2^w - 1`. -/
def bstep (w : Nat) (p : Nat × Nat) : Nat × Nat :=
  if p.2 &&& (2 ^ w - 1) = 0 then (p.1 + w, p.2 >>> w) else p

/-- The final `if ((x & 0x1) == 0) ++n;` block of `ctz_bsearch`
(lines 126-129) followed by `return n`. -/
def bsearchEnd (p : Nat × Nat) : Nat :=
  if p.2 &&& 0x1 = 0 then p.1 + 1 else p.1

/-- `ctz_bsearch` (lines 102-130): binary search over halves of
decreasing width 16, 8, 4, 2, then a final 1-bit test.  The mutable
`(n, x)` pair threads left to right through the four `if` blocks. -/
def ctz_bsearch (x : Nat) : Nat :=
  if x = 0 then 32
  else bsearchEnd (bstep 2 (bstep 4 (bstep 8 (bstep 16 (0, x)))))

/-- The De Bruijn constant `debruijn32 = 0x077CB531` (line 141). -/
def debruijn32 : Nat := 0x077CB531

/-- The permutation table `index32` (lines 147-150). -/
def index32 : List Nat :=
  [0, 1, 28, 2, 29, 14, 24, 3, 30, 22, 20, 15, 25, 17, 4, 8,
   31, 27, 13, 23, 21, 19, 16, 7, 26, 12, 18, 6, 11, 5, 10, 9]

/-- `ctz_debruijn` (lines 132-153): isolate the lowest set bit with
`x & -x`, multiply by the De Bruijn constant (mod `2^32`), take the top
5 bits and look them up in `index32`.  The lookup index is `< 32 =
index32.length`, so `getD _ 0` never takes its default. -/
def ctz_debruijn (x : Nat) : Nat :=
  if x = 0 then 32
  else index32.getD ((((x &&& ((2 ^ 32 - x) % 2 ^ 32)) * debruijn32) % 2 ^ 32) >>> 27 &&& 0x1F) 0

/-- `ctz` (lines 157-202): on GCC/Clang this delegates to the hardware
`__builtin_ctz` intrinsic, which is platform-specific and undefined at 0;
the source's portable fallback branch (line 197) binds
`ctz = ctz_debruijn`, which we take as the embedding.  All software
variants agree on `[0, 2^32)` (see the equivalence theorems below). -/
def ctz (x : Nat) : Nat := ctz_debruijn x

/-- `cto` (lines 204-207): `ctz(~x)`; on 32-bit unsigned, `~x` is
`x ^^^ (2^32 - 1)`. -/
def cto (x : Nat) : Nat := ctz (x ^^^ (2 ^ 32 - 1))

/-! ### Source embedding: the solver -/

/-- Lines 217-218 of `solution`: `n >>= ctz(n); n >>= cto(n);` —
strip the trailing zeros, then the trailing ones. -/
def afterStrip (n : Nat) : Nat :=
  let n := n >>> ctz n
  let n := n >>> cto n
  n

/-- The `while (n)` loop of `solution` (lines 222-227), modelled with
fuel (the C++ loop is unbounded; `gapIters_le` below shows 32 iterations
always suffice on the solver's domain, so the fuel is never exhausted
there). -/
def gapLoop : Nat → Nat → Nat → Nat
  | 0, _, maxAcc => maxAcc
  | fuel + 1, n, maxAcc =>
    if n = 0 then maxAcc
    else
      let tz := ctz n
      let maxAcc := max tz maxAcc
      let n := n >>> tz
      let n := n >>> cto n
      gapLoop fuel n maxAcc

/-- `solution` (lines 209-230).  The C++ `throw std::out_of_range` is
modelled as `Except.error`. -/
def solution (N : Int) : Except String Nat :=
  if N < 1 then Except.error "N not a positive integer"
  else Except.ok (gapLoop 32 (afterStrip N.toNat) 0)

/-- Arguments of the direct `ctz(n)` calls made while running the loop of
`solution` (line 223), in order. -/
def gapLoopCtzArgs : Nat → Nat → List Nat
  | 0, _ => []
  | fuel + 1, n =>
    if n = 0 then []
    else n :: gapLoopCtzArgs fuel ((n >>> ctz n) >>> cto (n >>> ctz n))

/-- Arguments of the `cto(n)` calls made while running the loop of
`solution` (line 226), in order. -/
def gapLoopCtoArgs : Nat → Nat → List Nat
  | 0, _ => []
  | fuel + 1, n =>
    if n = 0 then []
    else (n >>> ctz n) :: gapLoopCtoArgs fuel ((n >>> ctz n) >>> cto (n >>> ctz n))

/-- All arguments passed directly to `ctz` during `solution N`
(line 217 plus each loop iteration's line 223). -/
def solutionCtzArgs (N : Int) : List Nat :=
  if N < 1 then []
  else N.toNat :: gapLoopCtzArgs 32 (afterStrip N.toNat)

/-- All arguments passed to `cto` during `solution N`
(line 218 plus each loop iteration's line 226). -/
def solutionCtoArgs (N : Int) : List Nat :=
  if N < 1 then []
  else (N.toNat >>> ctz N.toNat) :: gapLoopCtoArgs 32 (afterStrip N.toNat)

/-! ### Basic facts about the reference counters -/

theorem tzRef_zero : tzRef 0 = 0 := by
  unfold tzRef; simp

theorem tzRef_odd {x : Nat} (h : x % 2 = 1) : tzRef x = 0 := by
  unfold tzRef; simp [h]

theorem tzRef_even {x : Nat} (hx : x ≠ 0) (h : x % 2 = 0) :
    tzRef x = tzRef (x / 2) + 1 := by
  rw [tzRef]
  simp [hx, h]

theorem oRef_even {x : Nat} (h : x % 2 = 0) : oRef x = 0 := by
  unfold oRef; simp [h]

theorem oRef_odd {x : Nat} (h : x % 2 = 1) : oRef x = oRef (x / 2) + 1 := by
  rw [oRef]
  simp [h]

theorem oRef_pos {x : Nat} (h : x % 2 = 1) : 1 ≤ oRef x := by
  rw [oRef_odd h]; omega

/-- After shifting out its trailing zeros, a nonzero number is odd. -/
theorem tzRef_shiftRight_odd {x : Nat} (hx : x ≠ 0) :
    (x >>> tzRef x) % 2 = 1 := by
  induction x using Nat.strong_induction_on with
  | _ x ih =>
    rcases Nat.mod_two_eq_zero_or_one x with h | h
    · rw [tzRef_even hx h, Nat.shiftRight_eq_div_pow, pow_succ,
        Nat.mul_comm, ← Nat.div_div_eq_div_mul, ← Nat.shiftRight_eq_div_pow]
      exact ih (x / 2) (Nat.div_lt_self (Nat.pos_of_ne_zero hx) (by omega))
        (by omega)
    · rw [tzRef_odd h]
      simpa using h

/-- `2 ^ tzRef x` divides `x`. -/
theorem tzRef_pow_dvd (x : Nat) : 2 ^ tzRef x ∣ x := by
  induction x using Nat.strong_induction_on with
  | _ x ih =>
    rcases Nat.eq_zero_or_pos x with rfl | hx
    · simp
    rcases Nat.mod_two_eq_zero_or_one x with h | h
    · rw [tzRef_even (by omega) h, pow_succ, Nat.mul_comm (2 ^ tzRef (x / 2)) 2]
      obtain ⟨c, hc⟩ := ih (x / 2) (Nat.div_lt_self hx (by omega))
      refine ⟨c, ?_⟩
      calc x = 2 * (x / 2) := by omega
      _ = 2 * (2 ^ tzRef (x / 2) * c) := by conv_lhs => rw [hc]
      _ = 2 * 2 ^ tzRef (x / 2) * c := by ring
    · rw [tzRef_odd h]; simp

/-- Decomposition of a number into its trailing-zero part and its odd
part. -/
theorem tzRef_decomp (x : Nat) : x = 2 ^ tzRef x * (x >>> tzRef x) := by
  rw [Nat.shiftRight_eq_div_pow]
  exact (Nat.mul_div_cancel' (tzRef_pow_dvd x)).symm

/-- `2 ^ k` divides `x` exactly when `k ≤ tzRef x` (for `x ≠ 0`). -/
theorem tzRef_dvd_iff {x : Nat} (hx : x ≠ 0) (k : Nat) :
    2 ^ k ∣ x ↔ k ≤ tzRef x := by
  constructor
  · induction k generalizing x with
    | zero => intro _; omega
    | succ k ih =>
      intro hdvd
      obtain ⟨c, hc⟩ := hdvd
      have heven : x % 2 = 0 := by
        have : x = 2 * (2 ^ k * c) := by rw [hc]; ring
        omega
      have hhalf : x / 2 = 2 ^ k * c := by
        have : x = 2 * (2 ^ k * c) := by rw [hc]; ring
        omega
      have hne : x / 2 ≠ 0 := by
        have h2 : 2 ∣ x := ⟨x / 2, by omega⟩
        have := Nat.pos_of_ne_zero hx
        omega
      rw [tzRef_even hx heven]
      have := ih hne ⟨c, hhalf⟩
      omega
  · intro hk
    exact dvd_trans (pow_dvd_pow 2 hk) (tzRef_pow_dvd x)

theorem tzRef_lt_of_lt {x w : Nat} (hx : x ≠ 0) (hw : x < 2 ^ w) :
    tzRef x < w := by
  have h1 : 2 ^ tzRef x ≤ x := Nat.le_of_dvd (Nat.pos_of_ne_zero hx) (tzRef_pow_dvd x)
  have h2 : 2 ^ tzRef x < 2 ^ w := by omega
  exact (Nat.pow_lt_pow_iff_right (by omega)).mp h2

/-- `tzRef` is the unique `k` with `2 ^ k ∣ x` and `x / 2 ^ k` odd. -/
theorem tzRef_unique {x k : Nat} (h1 : x % 2 ^ k = 0)
    (h2 : x / 2 ^ k % 2 = 1) : tzRef x = k := by
  have hx : x ≠ 0 := by
    intro h; rw [h] at h2; simp at h2
  have hge : k ≤ tzRef x :=
    (tzRef_dvd_iff hx k).mp (Nat.dvd_of_mod_eq_zero h1)
  have hle : tzRef x ≤ k := by
    by_contra hlt
    have : 2 ^ (k + 1) ∣ x := (tzRef_dvd_iff hx (k + 1)).mpr (by omega)
    obtain ⟨c, hc⟩ := this
    have hx2 : x = 2 ^ k * (2 * c) := by rw [hc, pow_succ]; ring
    have : x / 2 ^ k = 2 * c := by
      rw [hx2, Nat.mul_div_cancel_left _ (Nat.two_pow_pos k)]
    omega
  omega

theorem tzRef_testBit {x : Nat} (hx : x ≠ 0) :
    x.testBit (tzRef x) = true := by
  have := tzRef_shiftRight_odd hx
  rw [Nat.shiftRight_eq_div_pow] at this
  rw [Nat.testBit_to_div_mod]
  simpa using this

theorem tzRef_testBit_lt {x j : Nat} (hx : x ≠ 0) (hj : j < tzRef x) :
    x.testBit j = false := by
  have hdvd : 2 ^ (j + 1) ∣ x := (tzRef_dvd_iff hx (j + 1)).mpr (by omega)
  obtain ⟨c, hc⟩ := hdvd
  have hx2 : x = 2 ^ j * (2 * c) := by rw [hc, pow_succ]; ring
  have hdiv : x / 2 ^ j = 2 * c := by
    rw [hx2, Nat.mul_div_cancel_left _ (Nat.two_pow_pos j)]
  rw [Nat.testBit_to_div_mod, hdiv]
  simp [Nat.mul_mod_right]

/-- Lowest-set-bit characterization of `tzRef`. -/
theorem tzRef_eq_of_testBit {x z : Nat} (h1 : x.testBit z = true)
    (h2 : ∀ j < z, x.testBit j = false) : tzRef x = z := by
  have hmod : x % 2 ^ z = 0 := by
    have hall : ∀ i, (x % 2 ^ z).testBit i = Nat.testBit 0 i := by
      intro i
      rw [Nat.testBit_mod_two_pow]
      by_cases hi : i < z
      · simp [hi, h2 i hi]
      · simp [hi]
    exact Nat.eq_of_testBit_eq hall
  have hdiv : x / 2 ^ z % 2 = 1 := by
    rw [Nat.testBit_to_div_mod] at h1
    simpa using h1
  exact tzRef_unique hmod hdiv

/-- The low `oRef x` bits of `x` are all ones. -/
theorem oRef_mod (x : Nat) : x % 2 ^ oRef x = 2 ^ oRef x - 1 := by
  induction x using Nat.strong_induction_on with
  | _ x ih =>
    rcases Nat.mod_two_eq_zero_or_one x with h | h
    · rw [oRef_even h, pow_zero]; omega
    · rw [oRef_odd h]
      set o := oRef (x / 2) with ho
      have hrec : x / 2 % 2 ^ o = 2 ^ o - 1 :=
        ih (x / 2) (Nat.div_lt_self (by omega) (by omega))
      have hpow : (2 : Nat) ^ (o + 1) = 2 * 2 ^ o := by rw [pow_succ]; ring
      have hlt : x / 2 % 2 ^ o < 2 ^ o := Nat.mod_lt _ (Nat.two_pow_pos _)
      have hp := Nat.two_pow_pos o
      have hxe : x = 2 ^ (o + 1) * (x / 2 / 2 ^ o) + (2 * (x / 2 % 2 ^ o) + 1) := by
        have hq := Nat.div_add_mod (x / 2) (2 ^ o)
        rw [hpow, Nat.mul_assoc]; omega
      rw [hxe, Nat.mul_add_mod,
        Nat.mod_eq_of_lt (by omega : 2 * (x / 2 % 2 ^ o) + 1 < 2 ^ (o + 1))]
      omega

/-- After shifting out its trailing ones, a number is even. -/
theorem oRef_shiftRight_even (x : Nat) : (x >>> oRef x) % 2 = 0 := by
  induction x using Nat.strong_induction_on with
  | _ x ih =>
    rcases Nat.mod_two_eq_zero_or_one x with h | h
    · rw [oRef_even h]; simpa using h
    · rw [oRef_odd h, Nat.shiftRight_eq_div_pow, pow_succ,
        Nat.mul_comm (2 ^ oRef (x / 2)) 2, ← Nat.div_div_eq_div_mul,
        ← Nat.shiftRight_eq_div_pow]
      exact ih (x / 2) (Nat.div_lt_self (by omega) (by omega))

theorem oRef_testBit_lt {x j : Nat} (hj : j < oRef x) :
    x.testBit j = true := by
  have h1 : (x % 2 ^ oRef x).testBit j = x.testBit j := by
    rw [Nat.testBit_mod_two_pow]; simp [hj]
  rw [← h1, oRef_mod x]
  simp [hj]

theorem oRef_testBit_self (x : Nat) : x.testBit (oRef x) = false := by
  have := oRef_shiftRight_even x
  rw [Nat.shiftRight_eq_div_pow] at this
  rw [Nat.testBit_to_div_mod]
  simp [this]

theorem oRef_le_of_lt {x w : Nat} (hw : x < 2 ^ w) : oRef x ≤ w := by
  have h1 : 2 ^ oRef x - 1 ≤ x := by
    have := oRef_mod x
    have := Nat.mod_le x (2 ^ oRef x)
    omega
  have h2 : 2 ^ oRef x ≤ 2 ^ w := by omega
  exact (Nat.pow_le_pow_iff_right (by omega)).mp h2

/-- The trailing-ones count of an all-ones word. -/
theorem oRef_two_pow_sub_one (l : Nat) : oRef (2 ^ l - 1) = l := by
  induction l with
  | zero => simp [oRef_even]
  | succ l ih =>
    have hpow : (2 : Nat) ^ (l + 1) = 2 * 2 ^ l := by rw [pow_succ]; ring
    have hp := Nat.two_pow_pos l
    have hodd : (2 ^ (l + 1) - 1) % 2 = 1 := by omega
    rw [oRef_odd hodd]
    have hdiv : (2 ^ (l + 1) - 1) / 2 = 2 ^ l - 1 := by omega
    rw [hdiv, ih]

/-! ### Specification-side loop (no fuel, reference counters) -/

/-- One loop iteration on the specification side: shift out the trailing
zeros, then the trailing ones. -/
def nextVal (m : Nat) : Nat := (m >>> tzRef m) >>> oRef (m >>> tzRef m)

/-- Shifting an odd number right by its trailing-ones count strictly
decreases it. -/
theorem shiftRight_oRef_lt {y : Nat} (hy : y % 2 = 1) : y >>> oRef y < y := by
  rw [Nat.shiftRight_eq_div_pow]
  have ho := oRef_pos hy
  exact Nat.div_lt_self (by omega) (by
    calc 1 < 2 ^ 1 := by omega
    _ ≤ 2 ^ oRef y := Nat.pow_le_pow_right (by omega) ho)

theorem nextVal_lt {m : Nat} (hm : m ≠ 0) : nextVal m < m := by
  have hodd := tzRef_shiftRight_odd hm
  have h1 : m >>> tzRef m ≤ m := by
    rw [Nat.shiftRight_eq_div_pow]; exact Nat.div_le_self _ _
  have h2 := shiftRight_oRef_lt hodd
  have h3 : nextVal m = (m >>> tzRef m) >>> oRef (m >>> tzRef m) := rfl
  omega

/-- The sequence of values the loop examines, starting from `m`. -/
def loopVals (m : Nat) : List Nat :=
  if h : m = 0 then []
  else m :: loopVals (nextVal m)
termination_by m
decreasing_by exact nextVal_lt h

/-- The loop's result on the specification side. -/
def gapGo (m : Nat) : Nat :=
  if h : m = 0 then 0
  else max (tzRef m) (gapGo (nextVal m))
termination_by m
decreasing_by exact nextVal_lt h

theorem loopVals_zero : loopVals 0 = [] := by
  unfold loopVals; simp

theorem loopVals_pos {m : Nat} (h : m ≠ 0) :
    loopVals m = m :: loopVals (nextVal m) := by
  rw [loopVals]
  simp [h]

theorem gapGo_zero : gapGo 0 = 0 := by
  unfold gapGo; simp

theorem gapGo_pos {m : Nat} (h : m ≠ 0) :
    gapGo m = max (tzRef m) (gapGo (nextVal m)) := by
  rw [gapGo]
  simp [h]

/-! ### Bitwise identities used by the CTZ variant proofs -/

theorem land_two_mul_add {a b ra rb : Nat} (hra : ra < 2) (hrb : rb < 2) :
    (2 * a + ra) &&& (2 * b + rb) = 2 * (a &&& b) + (ra &&& rb) := by
  apply Nat.eq_of_testBit_eq
  intro i
  cases i with
  | zero =>
    rw [Nat.testBit_and, Nat.testBit_zero, Nat.testBit_zero, Nat.testBit_zero]
    have h1 : (2 * a + ra) % 2 = ra := by omega
    have h2 : (2 * b + rb) % 2 = rb := by omega
    have hand : ra &&& rb < 2 := Nat.lt_of_le_of_lt Nat.and_le_left hra
    have h3 : (2 * (a &&& b) + (ra &&& rb)) % 2 = ra &&& rb := by omega
    rw [h1, h2, h3]
    interval_cases ra <;> interval_cases rb <;> decide
  | succ i =>
    rw [Nat.testBit_and, Nat.testBit_add_one, Nat.testBit_add_one,
      Nat.testBit_add_one]
    have hand : ra &&& rb < 2 := Nat.lt_of_le_of_lt Nat.and_le_left hra
    have h1 : (2 * a + ra) / 2 = a := by omega
    have h2 : (2 * b + rb) / 2 = b := by omega
    have h3 : (2 * (a &&& b) + (ra &&& rb)) / 2 = a &&& b := by omega
    rw [h1, h2, h3, Nat.testBit_and]

/-- A number and its complement below `2 ^ w` share no bits. -/
theorem land_compl_sub (w : Nat) : ∀ c, c < 2 ^ w → c &&& (2 ^ w - 1 - c) = 0 := by
  induction w with
  | zero =>
    intro c hc
    rw [pow_zero] at hc
    interval_cases c
    decide
  | succ w ih =>
    intro c hc
    have hpow : (2 : Nat) ^ (w + 1) = 2 * 2 ^ w := by rw [pow_succ]; ring
    have hq : c / 2 < 2 ^ w := by omega
    have hr : c % 2 < 2 := Nat.mod_lt _ (by omega)
    have hc2 : c = 2 * (c / 2) + c % 2 := by omega
    have hm : 2 ^ (w + 1) - 1 - c = 2 * (2 ^ w - 1 - c / 2) + (1 - c % 2) := by
      have := Nat.two_pow_pos w
      omega
    rw [hm]
    nth_rewrite 1 [hc2]
    rw [land_two_mul_add hr (by omega), ih _ hq]
    have hzero : c % 2 &&& (1 - c % 2) = 0 := by
      rcases Nat.mod_two_eq_zero_or_one c with h | h <;> rw [h] <;> decide
    rw [hzero]

/-- For odd `m < 2 ^ w`, `m &&& (2 ^ w - m)` isolates bit 0. -/
theorem odd_land_sub (w : Nat) : ∀ m, m % 2 = 1 → m < 2 ^ w →
    m &&& (2 ^ w - m) = 1 := by
  induction w with
  | zero =>
    intro m hm hlt
    rw [pow_zero] at hlt
    omega
  | succ w _ =>
    intro m hm hlt
    have hpow : (2 : Nat) ^ (w + 1) = 2 * 2 ^ w := by rw [pow_succ]; ring
    have hq : m / 2 < 2 ^ w := by omega
    have hm2 : m = 2 * (m / 2) + 1 := by omega
    have hs : 2 ^ (w + 1) - m = 2 * (2 ^ w - 1 - m / 2) + 1 := by
      have := Nat.two_pow_pos w
      omega
    rw [hs]
    nth_rewrite 1 [hm2]
    rw [land_two_mul_add (by omega) (by omega), land_compl_sub w _ hq]
    decide

/-- `&&&` distributes over multiplication by a power of two. -/
theorem land_mul_two_pow (t : Nat) (a b : Nat) :
    (2 ^ t * a) &&& (2 ^ t * b) = 2 ^ t * (a &&& b) := by
  induction t with
  | zero => simp
  | succ t ih =>
    have hpow : ∀ c : Nat, 2 ^ (t + 1) * c = 2 * (2 ^ t * c) := by
      intro c; rw [pow_succ]; ring
    rw [hpow a, hpow b, hpow (a &&& b)]
    have h00 : (2 * (2 ^ t * a) + 0) &&& (2 * (2 ^ t * b) + 0)
        = 2 * ((2 ^ t * a) &&& (2 ^ t * b)) + (0 &&& 0) :=
      land_two_mul_add (by omega) (by omega)
    simpa [ih] using h00

/-- The `x & -x` idiom on 32-bit unsigned values isolates the lowest set
bit: it equals `2 ^ tzRef x` for nonzero `x`. -/
theorem land_neg_eq_two_pow {x : Nat} (hx : x ≠ 0) (hlt : x < 2 ^ 32) :
    x &&& ((2 ^ 32 - x) % 2 ^ 32) = 2 ^ tzRef x := by
  have hmod : (2 ^ 32 - x) % 2 ^ 32 = 2 ^ 32 - x := Nat.mod_eq_of_lt (by omega)
  rw [hmod]
  have ht : tzRef x < 32 := tzRef_lt_of_lt hx hlt
  have hdec := tzRef_decomp x
  set t := tzRef x with htdef
  set m := x >>> t with hmdef
  have hmodd : m % 2 = 1 := tzRef_shiftRight_odd hx
  have hsplit : (2 : Nat) ^ 32 = 2 ^ t * 2 ^ (32 - t) := by
    rw [← pow_add]
    congr 1
    omega
  have hmlt : m < 2 ^ (32 - t) := by
    by_contra hge
    push_neg at hge
    have : 2 ^ t * 2 ^ (32 - t) ≤ 2 ^ t * m :=
      Nat.mul_le_mul_left _ hge
    rw [← hsplit, ← hdec] at this
    omega
  have hsub : 2 ^ 32 - x = 2 ^ t * (2 ^ (32 - t) - m) := by
    rw [Nat.mul_sub_left_distrib, ← hsplit]
    conv_lhs => rw [hdec]
  conv_lhs => rw [hsub, hdec]
  rw [land_mul_two_pow, odd_land_sub (32 - t) m hmodd hmlt, Nat.mul_one]

/-! ### Correctness of the four CTZ variants -/

/-- The CTZ contract as a function: index of the lowest set bit, with
sentinel 32 at zero. -/
def ctzSpec (x : Nat) : Nat := if x = 0 then 32 else tzRef x

theorem ctz_simple_go_zero : ∀ j bit, bit + j = 32 → ctz_simple_go 0 bit = 32 := by
  intro j
  induction j with
  | zero =>
    intro bit h
    unfold ctz_simple_go
    rw [dif_neg (by omega : ¬ bit < 32)]
  | succ j ih =>
    intro bit h
    unfold ctz_simple_go
    rw [dif_pos (by omega : bit < 32),
      if_neg (by decide : ¬((0 : Nat) &&& 1 = 1))]
    have h0 : (0 : Nat) >>> 1 = 0 := by decide
    rw [h0]
    exact ih (bit + 1) (by omega)

theorem ctz_simple_go_found : ∀ j bit x, bit + j = 32 → x ≠ 0 → tzRef x < j →
    ctz_simple_go x bit = bit + tzRef x := by
  intro j
  induction j with
  | zero => intro bit x _ _ ht; omega
  | succ j ih =>
    intro bit x h hx ht
    unfold ctz_simple_go
    rw [dif_pos (by omega : bit < 32)]
    rcases Nat.mod_two_eq_zero_or_one x with he | ho
    · rw [if_neg (by rw [Nat.and_one_is_mod]; omega)]
      have hs1 : x >>> 1 = x / 2 := by rw [Nat.shiftRight_eq_div_pow, pow_one]
      have htz := tzRef_even hx he
      rw [hs1, ih (bit + 1) (x / 2) (by omega) (by omega) (by omega)]
      omega
    · rw [if_pos (by rw [Nat.and_one_is_mod]; omega), tzRef_odd ho]
      omega

theorem ctz_simple_correct {x : Nat} (hx : x < 2 ^ 32) :
    ctz_simple x = ctzSpec x := by
  unfold ctz_simple ctzSpec
  by_cases h : x = 0
  · rw [if_pos h, h]
    exact ctz_simple_go_zero 32 0 rfl
  · rw [if_neg h]
    have ht : tzRef x < 32 := tzRef_lt_of_lt h hx
    have := ctz_simple_go_found 32 0 x (by omega) h (by omega)
    omega

/-- The De Bruijn multiply-and-look-up step recovers each bit index. -/
theorem debruijn_table : ∀ t < 32,
    index32.getD (((2 ^ t * debruijn32) % 2 ^ 32) >>> 27 &&& 0x1F) 0 = t := by
  decide

theorem ctz_debruijn_correct {x : Nat} (hx : x < 2 ^ 32) :
    ctz_debruijn x = ctzSpec x := by
  unfold ctz_debruijn ctzSpec
  by_cases h : x = 0
  · rw [if_pos h, if_pos h]
  · rw [if_neg h, if_neg h, land_neg_eq_two_pow h hx]
    exact debruijn_table (tzRef x) (tzRef_lt_of_lt h hx)

/-- `popcnt` is correct on the all-ones masks `2 ^ k - 1` it receives
from `ctz_bits` (exhaustive check of the 33 cases). -/
theorem popcnt_two_pow_sub_one : ∀ k < 33, popcnt (2 ^ k - 1) = k := by
  decide

theorem ctz_bits_correct {x : Nat} (hx : x < 2 ^ 32) :
    ctz_bits x = ctzSpec x := by
  unfold ctz_bits ctzSpec
  by_cases h : x = 0
  · rw [if_pos h, h]
    have h0 : (((0 : Nat) &&& ((2 ^ 32 - 0) % 2 ^ 32)) + 2 ^ 32 - 1) % 2 ^ 32
        = 2 ^ 32 - 1 := by decide
    rw [h0]
    exact popcnt_two_pow_sub_one 32 (by omega)
  · rw [if_neg h, land_neg_eq_two_pow h hx]
    have ht : tzRef x < 32 := tzRef_lt_of_lt h hx
    have hp : (1 : Nat) ≤ 2 ^ tzRef x := Nat.one_le_two_pow
    have hle : (2 : Nat) ^ tzRef x ≤ 2 ^ 32 := Nat.pow_le_pow_right (by omega) (by omega)
    have harg : (2 ^ tzRef x + 2 ^ 32 - 1) % 2 ^ 32 = 2 ^ tzRef x - 1 := by
      have he : 2 ^ tzRef x + 2 ^ 32 - 1 = 2 ^ 32 + (2 ^ tzRef x - 1) := by omega
      rw [he, Nat.add_mod_left]
      exact Nat.mod_eq_of_lt (by omega)
    rw [harg]
    exact popcnt_two_pow_sub_one (tzRef x) (by omega)

/-- Shifting out `w` known-zero low bits lowers the trailing-zero count
by exactly `w`. -/
theorem tzRef_div_pow : ∀ (w : Nat) {x : Nat}, x ≠ 0 → 2 ^ w ∣ x →
    tzRef (x / 2 ^ w) + w = tzRef x := by
  intro w
  induction w with
  | zero => intro x _ _; simp
  | succ w ih =>
    intro x hx hdvd
    obtain ⟨c, hc⟩ := hdvd
    have hx2 : x = 2 * (2 ^ w * c) := by rw [hc, pow_succ]; ring
    have heven : x % 2 = 0 := by omega
    have hhalf : x / 2 = 2 ^ w * c := by omega
    have hne : x / 2 ≠ 0 := by omega
    have hdd : x / 2 ^ (w + 1) = (x / 2) / 2 ^ w := by
      rw [Nat.div_div_eq_div_mul]
      congr 1
      rw [pow_succ]
      ring
    rw [hdd, tzRef_even hx heven]
    have := ih hne ⟨c, hhalf⟩
    omega

theorem bstep_spec {w : Nat} (hw : 0 < w) {p : Nat × Nat} (hx : p.2 ≠ 0)
    (ht : tzRef p.2 < 2 * w) :
    (bstep w p).2 ≠ 0 ∧ tzRef (bstep w p).2 < w ∧
      (bstep w p).1 + tzRef (bstep w p).2 = p.1 + tzRef p.2 := by
  unfold bstep
  by_cases h : p.2 &&& (2 ^ w - 1) = 0
  · rw [if_pos h]
    rw [Nat.and_pow_two_sub_one_eq_mod] at h
    have hdvd : 2 ^ w ∣ p.2 := Nat.dvd_of_mod_eq_zero h
    have hge : w ≤ tzRef p.2 := (tzRef_dvd_iff hx w).mp hdvd
    have hle : 2 ^ w ≤ p.2 := Nat.le_of_dvd (Nat.pos_of_ne_zero hx) hdvd
    have hq : p.2 >>> w = p.2 / 2 ^ w := Nat.shiftRight_eq_div_pow _ _
    have hne : p.2 / 2 ^ w ≠ 0 := by
      have := Nat.div_pos hle (Nat.two_pow_pos w)
      omega
    have htz := tzRef_div_pow w hx hdvd
    refine ⟨?_, ?_, ?_⟩
    · show p.2 >>> w ≠ 0
      rw [hq]; exact hne
    · show tzRef (p.2 >>> w) < w
      rw [hq]; omega
    · show p.1 + w + tzRef (p.2 >>> w) = p.1 + tzRef p.2
      rw [hq]; omega
  · rw [if_neg h]
    have hndvd : ¬ 2 ^ w ∣ p.2 := by
      rw [Nat.and_pow_two_sub_one_eq_mod] at h
      exact fun hd => h (Nat.mod_eq_zero_of_dvd hd)
    have hlt : tzRef p.2 < w := by
      by_contra hge
      exact hndvd ((tzRef_dvd_iff hx w).mpr (by omega))
    exact ⟨hx, hlt, by omega⟩

theorem ctz_bsearch_correct {x : Nat} (hx : x < 2 ^ 32) :
    ctz_bsearch x = ctzSpec x := by
  unfold ctz_bsearch ctzSpec
  by_cases h : x = 0
  · rw [if_pos h, if_pos h]
  · rw [if_neg h, if_neg h]
    have h0 : tzRef x < 32 := tzRef_lt_of_lt h hx
    obtain ⟨n16, t16, e16⟩ := bstep_spec (w := 16) (by omega) (p := (0, x)) h
      (show tzRef x < 2 * 16 by omega)
    replace e16 : (bstep 16 (0, x)).1 + tzRef (bstep 16 (0, x)).2
        = 0 + tzRef x := e16
    obtain ⟨n8, t8, e8⟩ := bstep_spec (w := 8) (by omega) n16 (by omega)
    obtain ⟨n4, t4, e4⟩ := bstep_spec (w := 4) (by omega) n8 (by omega)
    obtain ⟨n2, t2, e2⟩ := bstep_spec (w := 2) (by omega) n4 (by omega)
    unfold bsearchEnd
    rw [Nat.and_one_is_mod]
    by_cases hpar : (bstep 2 (bstep 4 (bstep 8 (bstep 16 (0, x))))).2 % 2 = 0
    · rw [if_pos hpar]
      have h1 := tzRef_even n2 hpar
      omega
    · rw [if_neg hpar]
      have h1 := tzRef_odd (show (bstep 2 (bstep 4 (bstep 8 (bstep 16 (0, x))))).2 % 2 = 1
        by omega)
      omega

/-! ### The binary-gap specification -/

/-- `hasGap n k`: the binary representation of `n` contains a (nonempty)
run of exactly `k` zero bits with a one bit immediately below and a one
bit immediately above. -/
def hasGap (n k : Nat) : Prop :=
  1 ≤ k ∧ ∃ i, n.testBit i = true ∧ n.testBit (i + k + 1) = true ∧
    ∀ j, i < j → j < i + k + 1 → n.testBit j = false

theorem hasGap_zero (k : Nat) : ¬ hasGap 0 k := by
  rintro ⟨_, i, h1, -, -⟩
  rw [Nat.zero_testBit] at h1
  exact Bool.false_ne_true h1

theorem tzRef_pos_of_even {m : Nat} (hm : m ≠ 0) (hev : m % 2 = 0) :
    1 ≤ tzRef m := by
  rw [tzRef_even hm hev]; omega

/-- Gaps are invariant under multiplication by a power of two (trailing
zeros can never take part in a gap). -/
theorem hasGap_shift (s M k : Nat) : hasGap (2 ^ s * M) k ↔ hasGap M k := by
  unfold hasGap
  constructor
  · rintro ⟨hk, i, h1, h2, h3⟩
    rw [Nat.testBit_mul_pow_two] at h1 h2
    simp only [Bool.and_eq_true, decide_eq_true_eq] at h1 h2
    have hsle : s ≤ i := h1.1
    refine ⟨hk, i - s, h1.2, ?_, ?_⟩
    · have he : i + k + 1 - s = i - s + k + 1 := by omega
      rw [he] at h2
      exact h2.2
    · intro j hj1 hj2
      have h4 := h3 (j + s) (by omega) (by omega)
      rw [Nat.testBit_mul_pow_two] at h4
      have hd : j + s ≥ s := by omega
      simpa [hd, Nat.add_sub_cancel] using h4
  · rintro ⟨hk, i, h1, h2, h3⟩
    refine ⟨hk, i + s, ?_, ?_, ?_⟩
    · rw [Nat.testBit_mul_pow_two]
      simp [show i + s ≥ s by omega, show i + s - s = i by omega, h1]
    · rw [Nat.testBit_mul_pow_two]
      simp [show i + s + k + 1 ≥ s by omega,
        show i + s + k + 1 - s = i + k + 1 by omega, h2]
    · intro j hj1 hj2
      rw [Nat.testBit_mul_pow_two]
      have h4 := h3 (j - s) (by omega) (by omega)
      simp [show j ≥ s by omega, h4]

/-- An all-ones word has no gap. -/
theorem hasGap_allOnes {l : Nat} (k : Nat) : ¬ hasGap (2 ^ l - 1) k := by
  rintro ⟨hk, i, h1, h2, h3⟩
  rw [Nat.testBit_two_pow_sub_one] at h1 h2
  simp only [decide_eq_true_eq] at h1 h2
  have h4 := h3 (i + 1) (by omega) (by omega)
  rw [Nat.testBit_two_pow_sub_one] at h4
  simp only [decide_eq_false_iff_not] at h4
  omega

/-- Stripping the trailing ones of an odd number: the gaps of `N` are
the gaps of `N >>> oRef N` plus (when the shifted value is nonzero) the
gap formed by its trailing-zero run, which in `N` is enclosed by the
stripped ones below and a one above. -/
theorem hasGap_stripOnes {N : Nat} (hodd : N % 2 = 1)
    (hne : N >>> oRef N ≠ 0) (k : Nat) :
    hasGap N k ↔ hasGap (N >>> oRef N) k ∨ k = tzRef (N >>> oRef N) := by
  set o := oRef N with ho
  set M := N >>> o with hM
  have hopos : 1 ≤ o := oRef_pos hodd
  have hbit_lo : ∀ j, j < o → N.testBit j = true := fun j hj => oRef_testBit_lt hj
  have hbit_hi : ∀ j, M.testBit j = N.testBit (o + j) := fun j =>
    Nat.testBit_shiftRight N
  have hMev : M % 2 = 0 := oRef_shiftRight_even N
  have hz1 : 1 ≤ tzRef M := tzRef_pos_of_even hne hMev
  have hzbit : M.testBit (tzRef M) = true := tzRef_testBit hne
  have hzlo : ∀ j, j < tzRef M → M.testBit j = false := fun j hj =>
    tzRef_testBit_lt hne hj
  constructor
  · rintro ⟨hk, i, h1, h2, h3⟩
    have hio : o ≤ i + 1 := by
      by_contra hlt
      push_neg at hlt
      have h4 := h3 (i + 1) (by omega) (by omega)
      rw [hbit_lo (i + 1) (by omega)] at h4
      simp at h4
    rcases Nat.lt_or_ge i o with hi | hi
    · right
      have hup : M.testBit k = true := by
        rw [hbit_hi]
        have he : o + k = i + k + 1 := by omega
        rw [he]
        exact h2
      have hlow : ∀ j, j < k → M.testBit j = false := by
        intro j hj
        rw [hbit_hi]
        exact h3 (o + j) (by omega) (by omega)
      exact (tzRef_eq_of_testBit hup hlow).symm
    · left
      refine ⟨hk, i - o, ?_, ?_, ?_⟩
      · rw [hbit_hi]
        have he : o + (i - o) = i := by omega
        rw [he]
        exact h1
      · rw [hbit_hi]
        have he : o + (i - o + k + 1) = i + k + 1 := by omega
        rw [he]
        exact h2
      · intro j hj1 hj2
        rw [hbit_hi]
        exact h3 (o + j) (by omega) (by omega)
  · rintro (⟨hk, i, h1, h2, h3⟩ | hk)
    · refine ⟨hk, o + i, ?_, ?_, ?_⟩
      · rw [← hbit_hi i]
        exact h1
      · have he : o + i + k + 1 = o + (i + k + 1) := by omega
        rw [he, ← hbit_hi]
        exact h2
      · intro j hj1 hj2
        have he : j = o + (j - o) := by omega
        rw [he, ← hbit_hi]
        exact h3 (j - o) (by omega) (by omega)
    · subst hk
      refine ⟨by omega, o - 1, hbit_lo (o - 1) (by omega), ?_, ?_⟩
      · have he : o - 1 + tzRef M + 1 = o + tzRef M := by omega
        rw [he, ← hbit_hi]
        exact hzbit
      · intro j hj1 hj2
        have he : j = o + (j - o) := by omega
        rw [he, ← hbit_hi]
        exact hzlo (j - o) (by omega)

/-! ### `ctz` and `cto` as used by the solver -/

theorem shiftRight_le (x k : Nat) : x >>> k ≤ x := by
  rw [Nat.shiftRight_eq_div_pow]
  exact Nat.div_le_self _ _

theorem ctz_correct {x : Nat} (hx : x < 2 ^ 32) : ctz x = ctzSpec x :=
  ctz_debruijn_correct hx

theorem ctz_eq_tzRef {x : Nat} (hx : x < 2 ^ 32) (hne : x ≠ 0) :
    ctz x = tzRef x := by
  rw [ctz_correct hx]
  unfold ctzSpec
  rw [if_neg hne]

/-- `cto` computes the trailing-ones count on the whole 32-bit domain
(including the all-ones word, where both sides are 32). -/
theorem cto_correct {x : Nat} (hx : x < 2 ^ 32) : cto x = oRef x := by
  unfold cto ctz
  by_cases h : x = 2 ^ 32 - 1
  · subst h
    rw [Nat.xor_self]
    have h0 : ctz_debruijn 0 = 32 := by
      unfold ctz_debruijn
      rw [if_pos rfl]
    rw [h0, oRef_two_pow_sub_one 32]
  · set y := x ^^^ (2 ^ 32 - 1) with hy
    have hylt : y < 2 ^ 32 := Nat.xor_lt_two_pow hx (by omega)
    have hyne : y ≠ 0 := fun h0 => h (Nat.xor_eq_zero.mp h0)
    rw [ctz_debruijn_correct hylt]
    unfold ctzSpec
    rw [if_neg hyne]
    have holt : oRef x < 32 := by
      rcases Nat.lt_or_ge (oRef x) 32 with hlt | hge
      · exact hlt
      · exfalso
        have h32 : oRef x = 32 := by
          have := oRef_le_of_lt (w := 32) hx
          omega
        have hm := oRef_mod x
        rw [h32, Nat.mod_eq_of_lt hx] at hm
        exact h hm
    apply tzRef_eq_of_testBit
    · rw [hy, Nat.testBit_xor, oRef_testBit_self, Nat.testBit_two_pow_sub_one]
      simp [holt]
    · intro j hj
      rw [hy, Nat.testBit_xor, oRef_testBit_lt hj, Nat.testBit_two_pow_sub_one]
      simp [show j < 32 by omega]

/-! ### Loop correctness against the gap specification -/

/-- Gaps "seen from inside the loop": entering an iteration with value
`m`, the trailing-zero run of `m` is enclosed in the original number
(the ones stripped earlier bound it below), and so are all proper gaps
of `m`. -/
def EGaps (m k : Nat) : Prop :=
  (m ≠ 0 ∧ 1 ≤ k ∧ k = tzRef m) ∨ hasGap m k

theorem EGaps_zero (k : Nat) : ¬ EGaps 0 k := by
  rintro (⟨h, -, -⟩ | h)
  · exact h rfl
  · exact hasGap_zero k h

/-- One loop iteration preserves the enclosed-gap set, splitting off the
measured trailing-zero run. -/
theorem EGaps_step {m : Nat} (hm : m ≠ 0) (hev : m % 2 = 0) (k : Nat) :
    EGaps m k ↔ (1 ≤ k ∧ k = tzRef m) ∨ EGaps (nextVal m) k := by
  have hodd : (m >>> tzRef m) % 2 = 1 := tzRef_shiftRight_odd hm
  have hm1ne : m >>> tzRef m ≠ 0 := by omega
  have hA : hasGap m k ↔ hasGap (m >>> tzRef m) k := by
    have h := hasGap_shift (tzRef m) (m >>> tzRef m) k
    rw [← tzRef_decomp m] at h
    exact h
  by_cases h2 : (m >>> tzRef m) >>> oRef (m >>> tzRef m) = 0
  · have hlt : m >>> tzRef m < 2 ^ oRef (m >>> tzRef m) := by
      rw [Nat.shiftRight_eq_div_pow] at h2
      exact (Nat.div_eq_zero_iff (Nat.two_pow_pos (oRef (m >>> tzRef m)))).mp h2
    have hall : m >>> tzRef m = 2 ^ oRef (m >>> tzRef m) - 1 := by
      have := oRef_mod (m >>> tzRef m)
      rw [Nat.mod_eq_of_lt hlt] at this
      exact this
    have hnv : nextVal m = 0 := h2
    constructor
    · rintro (⟨-, hk1, hkz⟩ | hg)
      · exact Or.inl ⟨hk1, hkz⟩
      · exfalso
        rw [hA, hall] at hg
        exact hasGap_allOnes k hg
    · rintro (⟨hk1, hkz⟩ | he)
      · exact Or.inl ⟨hm, hk1, hkz⟩
      · rw [hnv] at he
        exact absurd he (EGaps_zero k)
  · have hB := hasGap_stripOnes hodd h2 k
    have hnvev : nextVal m % 2 = 0 := oRef_shiftRight_even (m >>> tzRef m)
    have hz1 : 1 ≤ tzRef ((m >>> tzRef m) >>> oRef (m >>> tzRef m)) :=
      tzRef_pos_of_even h2 hnvev
    constructor
    · rintro (⟨-, hk1, hkz⟩ | hg)
      · exact Or.inl ⟨hk1, hkz⟩
      · rw [hA, hB] at hg
        rcases hg with hg | hg
        · exact Or.inr (Or.inr hg)
        · exact Or.inr (Or.inl ⟨h2, by omega, hg⟩)
    · rintro (⟨hk1, hkz⟩ | he)
      · exact Or.inl ⟨hm, hk1, hkz⟩
      · rcases he with ⟨-, -, hkz⟩ | hg
        · exact Or.inr ((hA.trans hB).mpr (Or.inr hkz))
        · exact Or.inr ((hA.trans hB).mpr (Or.inl hg))

/-- The loop computes an upper bound of all enclosed gaps, and its
result, when nonzero, is itself an enclosed gap. -/
theorem gapGo_correct : ∀ m, m % 2 = 0 →
    (∀ k, EGaps m k → k ≤ gapGo m) ∧ (gapGo m ≠ 0 → EGaps m (gapGo m)) := by
  intro m
  induction m using Nat.strong_induction_on with
  | _ m ih =>
    intro hev
    by_cases hm : m = 0
    · subst hm
      rw [gapGo_zero]
      exact ⟨fun k hk => absurd hk (EGaps_zero k), fun h => absurd rfl h⟩
    · rw [gapGo_pos hm]
      have hstep := EGaps_step hm hev
      have hnev : nextVal m % 2 = 0 := oRef_shiftRight_even (m >>> tzRef m)
      have ihn := ih (nextVal m) (nextVal_lt hm) hnev
      have htzpos : 1 ≤ tzRef m := tzRef_pos_of_even hm hev
      constructor
      · intro k hk
        rcases (hstep k).mp hk with ⟨-, hkz⟩ | he
        · rw [hkz]
          exact Nat.le_max_left _ _
        · exact Nat.le_trans (ihn.1 k he) (Nat.le_max_right _ _)
      · intro hne
        rcases Nat.le_total (gapGo (nextVal m)) (tzRef m) with hle | hge
        · rw [Nat.max_eq_left hle]
          exact (hstep _).mpr (Or.inl ⟨htzpos, rfl⟩)
        · rw [Nat.max_eq_right hge] at hne ⊢
          exact (hstep _).mpr (Or.inr (ihn.2 hne))

/-! ### Bridging the source loop to the specification loop -/

theorem loopVals_length : ∀ w m, m < 2 ^ w → (loopVals m).length ≤ w := by
  intro w
  induction w with
  | zero =>
    intro m hm
    rw [pow_zero] at hm
    have hz : m = 0 := by omega
    subst hz
    rw [loopVals_zero]
    simp
  | succ w ih =>
    intro m hm
    by_cases h : m = 0
    · subst h
      rw [loopVals_zero]
      simp
    · rw [loopVals_pos h]
      have hodd := tzRef_shiftRight_odd h
      have ho := oRef_pos hodd
      have h1 : m >>> tzRef m ≤ m := shiftRight_le _ _
      have e1 : nextVal m = (m >>> tzRef m) / 2 ^ oRef (m >>> tzRef m) := by
        unfold nextVal
        rw [Nat.shiftRight_eq_div_pow]
      have h2pow : (2 : Nat) ≤ 2 ^ oRef (m >>> tzRef m) := by
        calc (2 : Nat) = 2 ^ 1 := by norm_num
        _ ≤ 2 ^ oRef (m >>> tzRef m) := Nat.pow_le_pow_right (by omega) ho
      have hdiv2 : nextVal m ≤ m / 2 := by
        rw [e1]
        exact Nat.div_le_div h1 h2pow (by omega)
      have hpow : (2 : Nat) ^ (w + 1) = 2 * 2 ^ w := by rw [pow_succ]; ring
      have hnv : nextVal m < 2 ^ w := by omega
      have := ih (nextVal m) hnv
      simp only [List.length_cons]
      omega

theorem afterStrip_eq {n : Nat} (hn : n < 2 ^ 32) (hne : n ≠ 0) :
    afterStrip n = nextVal n := by
  show (n >>> ctz n) >>> cto (n >>> ctz n) = nextVal n
  rw [ctz_eq_tzRef hn hne,
    cto_correct (Nat.lt_of_le_of_lt (shiftRight_le n (tzRef n)) hn)]
  rfl

/-- With enough fuel (never exhausted on the domain, by
`loopVals_length`), the fuelled source loop computes the
specification-side loop's answer. -/
theorem gapLoop_eq_gapGo : ∀ fuel m g, m < 2 ^ 32 →
    (loopVals m).length ≤ fuel → gapLoop fuel m g = max g (gapGo m) := by
  intro fuel
  induction fuel with
  | zero =>
    intro m g hlt hlen
    have hm : m = 0 := by
      by_contra h
      rw [loopVals_pos h] at hlen
      simp at hlen
    subst hm
    rw [gapGo_zero]
    show g = max g 0
    simp
  | succ fuel ih =>
    intro m g hlt hlen
    by_cases hm : m = 0
    · subst hm
      rw [gapGo_zero]
      show (if (0 : Nat) = 0 then g else _) = max g 0
      simp
    · have hctz : ctz m = tzRef m := ctz_eq_tzRef hlt hm
      have hm1lt : m >>> tzRef m < 2 ^ 32 :=
        Nat.lt_of_le_of_lt (shiftRight_le _ _) hlt
      have hcto : cto (m >>> tzRef m) = oRef (m >>> tzRef m) := cto_correct hm1lt
      have hstep : gapLoop (fuel + 1) m g
          = gapLoop fuel (nextVal m) (max (tzRef m) g) := by
        show (if m = 0 then g
          else gapLoop fuel ((m >>> ctz m) >>> cto (m >>> ctz m)) (max (ctz m) g)) = _
        rw [if_neg hm, hctz, hcto]
        rfl
      have hlen2 : (loopVals (nextVal m)).length ≤ fuel := by
        rw [loopVals_pos hm] at hlen
        simpa using hlen
      have hnlt : nextVal m < 2 ^ 32 := Nat.lt_trans (nextVal_lt hm) hlt
      rw [hstep, ih (nextVal m) _ hnlt hlen2, gapGo_pos hm,
        max_comm (tzRef m) g, max_assoc]

/-- Gaps of the original number are exactly the enclosed gaps seen by
the loop after the initial double-strip. -/
theorem hasGap_iff_EGaps_strip {n : Nat} (hn : n ≠ 0) (k : Nat) :
    hasGap n k ↔ EGaps (nextVal n) k := by
  have hodd : (n >>> tzRef n) % 2 = 1 := tzRef_shiftRight_odd hn
  have hA : hasGap n k ↔ hasGap (n >>> tzRef n) k := by
    have h := hasGap_shift (tzRef n) (n >>> tzRef n) k
    rw [← tzRef_decomp n] at h
    exact h
  by_cases h2 : (n >>> tzRef n) >>> oRef (n >>> tzRef n) = 0
  · have hlt : n >>> tzRef n < 2 ^ oRef (n >>> tzRef n) := by
      rw [Nat.shiftRight_eq_div_pow] at h2
      exact (Nat.div_eq_zero_iff (Nat.two_pow_pos _)).mp h2
    have hall : n >>> tzRef n = 2 ^ oRef (n >>> tzRef n) - 1 := by
      have h3 := oRef_mod (n >>> tzRef n)
      rw [Nat.mod_eq_of_lt hlt] at h3
      exact h3
    have hnv : nextVal n = 0 := h2
    rw [hnv, hA, hall]
    constructor
    · intro hg
      exact absurd hg (hasGap_allOnes k)
    · intro hg
      exact absurd hg (EGaps_zero k)
  · have hB := hasGap_stripOnes hodd h2 k
    have hz1 : 1 ≤ tzRef ((n >>> tzRef n) >>> oRef (n >>> tzRef n)) :=
      tzRef_pos_of_even h2 (oRef_shiftRight_even _)
    rw [hA, hB]
    unfold EGaps
    constructor
    · rintro (hg | hkz)
      · exact Or.inr hg
      · exact Or.inl ⟨h2, by omega, hkz⟩
    · rintro (⟨-, -, hkz⟩ | hg)
      · exact Or.inr hkz
      · exact Or.inl hg

/-- The solver's answer on its domain, in specification terms. -/
theorem solution_eval {N : Int} (h1 : 1 ≤ N) (h2 : N ≤ 2147483647) :
    solution N = Except.ok (gapGo (nextVal N.toNat)) := by
  have hn1 : 1 ≤ N.toNat := by omega
  have hle : N.toNat ≤ 2147483647 := by omega
  have hnlt : N.toNat < 2 ^ 32 := by
    have hc : (2147483647 : Nat) < 2 ^ 32 := by norm_num
    omega
  unfold solution
  rw [if_neg (by omega : ¬ N < 1)]
  rw [afterStrip_eq hnlt (by omega)]
  have hfuel : (loopVals (nextVal N.toNat)).length ≤ 32 :=
    loopVals_length 32 _ (Nat.lt_trans (nextVal_lt (by omega)) hnlt)
  rw [gapLoop_eq_gapGo 32 _ 0 (Nat.lt_trans (nextVal_lt (by omega)) hnlt) hfuel]
  simp

/-- The full characterization shared by the functional-correctness
claims: the returned value bounds every gap of `N` and is itself a gap
when nonzero. -/
theorem solution_spec_main {N : Int} (h1 : 1 ≤ N) (h2 : N ≤ 2147483647) :
    ∃ g, solution N = Except.ok g ∧ (∀ k, hasGap N.toNat k → k ≤ g) ∧
      (g ≠ 0 → hasGap N.toNat g) := by
  have hn0 : N.toNat ≠ 0 := by omega
  have hEG := hasGap_iff_EGaps_strip hn0
  have hnev : nextVal N.toNat % 2 = 0 :=
    oRef_shiftRight_even (N.toNat >>> tzRef N.toNat)
  have hgc := gapGo_correct (nextVal N.toNat) hnev
  refine ⟨gapGo (nextVal N.toNat), solution_eval h1 h2, ?_, ?_⟩
  · intro k hk
    exact hgc.1 k ((hEG k).mp hk)
  · intro hne
    exact (hEG _).mpr (hgc.2 hne)

/-- `nextVal` reaches 0 exactly on numbers with at most one contiguous
block of one bits. -/
theorem nextVal_eq_zero_iff {n : Nat} (hn : n ≠ 0) :
    nextVal n = 0 ↔ ∃ s l, n = (2 ^ l - 1) * 2 ^ s := by
  constructor
  · intro h2
    have h2e : (n >>> tzRef n) >>> oRef (n >>> tzRef n) = 0 := h2
    have hlt : n >>> tzRef n < 2 ^ oRef (n >>> tzRef n) := by
      rw [Nat.shiftRight_eq_div_pow] at h2e
      exact (Nat.div_eq_zero_iff (Nat.two_pow_pos _)).mp h2e
    have hall : n >>> tzRef n = 2 ^ oRef (n >>> tzRef n) - 1 := by
      have h3 := oRef_mod (n >>> tzRef n)
      rw [Nat.mod_eq_of_lt hlt] at h3
      exact h3
    refine ⟨tzRef n, oRef (n >>> tzRef n), ?_⟩
    calc n = 2 ^ tzRef n * (n >>> tzRef n) := tzRef_decomp n
    _ = 2 ^ tzRef n * (2 ^ oRef (n >>> tzRef n) - 1) := by conv_lhs => rw [hall]
    _ = (2 ^ oRef (n >>> tzRef n) - 1) * 2 ^ tzRef n := by ring
  · rintro ⟨s, l, rfl⟩
    have hl : l ≠ 0 := by
      rintro rfl
      rw [pow_zero] at hn
      simp at hn
    have hpl : (1 : Nat) ≤ 2 ^ l := Nat.one_le_two_pow
    have hodd : (2 ^ l - 1) % 2 = 1 := by
      have hsp : (2 : Nat) ^ l = 2 * 2 ^ (l - 1) := by
        conv_lhs => rw [show l = 1 + (l - 1) by omega]
        rw [pow_add, pow_one]
      have := Nat.two_pow_pos (l - 1)
      omega
    have htz : tzRef ((2 ^ l - 1) * 2 ^ s) = s := by
      apply tzRef_unique
      · rw [Nat.mul_mod_left]
      · rw [Nat.mul_div_cancel _ (Nat.two_pow_pos s)]
        exact hodd
    have hshift : ((2 ^ l - 1) * 2 ^ s) >>> tzRef ((2 ^ l - 1) * 2 ^ s)
        = 2 ^ l - 1 := by
      rw [htz, Nat.shiftRight_eq_div_pow, Nat.mul_div_cancel _ (Nat.two_pow_pos s)]
    unfold nextVal
    rw [hshift, oRef_two_pow_sub_one, Nat.shiftRight_eq_div_pow]
    exact Nat.div_eq_of_lt (by omega)

/-! ### Properties of the values examined by the loop -/

theorem loopVals_mem_le : ∀ m, ∀ a ∈ loopVals m, a ≠ 0 ∧ a ≤ m := by
  intro m
  induction m using Nat.strong_induction_on with
  | _ m ih =>
    intro a ha
    by_cases h : m = 0
    · subst h
      rw [loopVals_zero] at ha
      simp at ha
    · rw [loopVals_pos h] at ha
      rcases List.mem_cons.mp ha with rfl | ha2
      · exact ⟨h, Nat.le_refl _⟩
      · have h2 := ih (nextVal m) (nextVal_lt h) a ha2
        have := nextVal_lt h
        exact ⟨h2.1, by omega⟩

theorem loopVals_mem_even : ∀ m, m % 2 = 0 → ∀ a ∈ loopVals m, a % 2 = 0 := by
  intro m
  induction m using Nat.strong_induction_on with
  | _ m ih =>
    intro hev a ha
    by_cases h : m = 0
    · subst h
      rw [loopVals_zero] at ha
      simp at ha
    · rw [loopVals_pos h] at ha
      rcases List.mem_cons.mp ha with rfl | ha2
      · exact hev
      · exact ih (nextVal m) (nextVal_lt h) (oRef_shiftRight_even _) a ha2

theorem loopVals_mem_EGaps : ∀ m, m % 2 = 0 → ∀ a ∈ loopVals m,
    ∀ k, EGaps a k → EGaps m k := by
  intro m
  induction m using Nat.strong_induction_on with
  | _ m ih =>
    intro hev a ha k hk
    by_cases h : m = 0
    · subst h
      rw [loopVals_zero] at ha
      simp at ha
    · rw [loopVals_pos h] at ha
      rcases List.mem_cons.mp ha with rfl | ha2
      · exact hk
      · have h2 := ih (nextVal m) (nextVal_lt h) (oRef_shiftRight_even _) a ha2 k hk
        exact (EGaps_step h hev k).mpr (Or.inr h2)

/-- On 32-bit values, one source-level loop step is `nextVal`. -/
theorem sourceStep_eq {m : Nat} (hm : m < 2 ^ 32) (hne : m ≠ 0) :
    (m >>> ctz m) >>> cto (m >>> ctz m) = nextVal m := by
  rw [ctz_eq_tzRef hm hne,
    cto_correct (Nat.lt_of_le_of_lt (shiftRight_le _ _) hm)]
  rfl

theorem gapLoopCtzArgs_mem : ∀ fuel m, ∀ a ∈ gapLoopCtzArgs fuel m,
    a ≠ 0 ∧ a ≤ m := by
  intro fuel
  induction fuel with
  | zero =>
    intro m a ha
    simp [gapLoopCtzArgs] at ha
  | succ fuel ih =>
    intro m a ha
    by_cases h : m = 0
    · simp [gapLoopCtzArgs, h] at ha
    · have he : gapLoopCtzArgs (fuel + 1) m
          = m :: gapLoopCtzArgs fuel ((m >>> ctz m) >>> cto (m >>> ctz m)) := by
        simp [gapLoopCtzArgs, h]
      rw [he] at ha
      rcases List.mem_cons.mp ha with rfl | ha2
      · exact ⟨h, Nat.le_refl _⟩
      · have h2 := ih _ a ha2
        have hle : (m >>> ctz m) >>> cto (m >>> ctz m) ≤ m :=
          Nat.le_trans (shiftRight_le _ _) (shiftRight_le _ _)
        exact ⟨h2.1, Nat.le_trans h2.2 hle⟩

theorem gapLoopCtoArgs_mem : ∀ fuel m, ∀ a ∈ gapLoopCtoArgs fuel m, a ≤ m := by
  intro fuel
  induction fuel with
  | zero =>
    intro m a ha
    simp [gapLoopCtoArgs] at ha
  | succ fuel ih =>
    intro m a ha
    by_cases h : m = 0
    · simp [gapLoopCtoArgs, h] at ha
    · have he : gapLoopCtoArgs (fuel + 1) m = (m >>> ctz m)
          :: gapLoopCtoArgs fuel ((m >>> ctz m) >>> cto (m >>> ctz m)) := by
        simp [gapLoopCtoArgs, h]
      rw [he] at ha
      rcases List.mem_cons.mp ha with rfl | ha2
      · exact shiftRight_le _ _
      · have h2 := ih _ a ha2
        have hle : (m >>> ctz m) >>> cto (m >>> ctz m) ≤ m :=
          Nat.le_trans (shiftRight_le _ _) (shiftRight_le _ _)
        exact Nat.le_trans h2 hle

/-! ### Claim theorems -/

/-- C1.  For every integer `N` in `[1, 2147483647]`, `solution N` returns
the length of the longest maximal run of zero bits enclosed between one
bits of `N`'s binary representation, and `0` when no enclosed run exists:
the returned `g` bounds every gap of `N` and, when nonzero, is itself a
gap (this pins `g` to the maximum gap length, or `0` when there is
none). -/
theorem solution_longest_gap (N : Int) (h1 : 1 ≤ N) (h2 : N ≤ 2147483647) :
    ∃ g, solution N = Except.ok g ∧ (∀ k, hasGap N.toNat k → k ≤ g) ∧
      (g ≠ 0 → hasGap N.toNat g) :=
  solution_spec_main h1 h2

theorem solution_longest_gap_witness :
    (1 : Int) ≤ 9 ∧ (9 : Int) ≤ 2147483647 ∧
    ∃ g, solution 9 = Except.ok g ∧ (∀ k, hasGap (9 : Int).toNat k → k ≤ g) ∧
      (g ≠ 0 → hasGap (9 : Int).toNat g) :=
  ⟨by norm_num, by norm_num, solution_longest_gap 9 (by norm_num) (by norm_num)⟩

/-- C2.  The `ctz` used by the solver returns the 0-based index of the
lowest set bit for nonzero 32-bit input and the sentinel 32 at zero;
`cto x = ctz(~x)` returns the length of the trailing run of one bits
(all bits below it are ones, the bit at it is zero) and 32 on the
all-ones word. -/
theorem ctz_cto_contract (x : Nat) (hx : x < 2 ^ 32) :
    (x = 0 → ctz x = 32) ∧
    (x ≠ 0 → Nat.testBit x (ctz x) = true ∧ ∀ j < ctz x, Nat.testBit x j = false) ∧
    (∀ j < cto x, Nat.testBit x j = true) ∧
    Nat.testBit x (cto x) = false ∧
    (x = 2 ^ 32 - 1 → cto x = 32) := by
  refine ⟨?_, ?_, ?_, ?_, ?_⟩
  · intro h
    subst h
    decide
  · intro hne
    rw [ctz_eq_tzRef hx hne]
    exact ⟨tzRef_testBit hne, fun j hj => tzRef_testBit_lt hne hj⟩
  · intro j hj
    rw [cto_correct hx] at hj
    exact oRef_testBit_lt hj
  · rw [cto_correct hx]
    exact oRef_testBit_self x
  · intro h
    subst h
    rw [cto_correct hx, oRef_two_pow_sub_one]

theorem ctz_cto_contract_witness :
    (12 : Nat) < 2 ^ 32 ∧
    (((12 : Nat) = 0 → ctz 12 = 32) ∧
    ((12 : Nat) ≠ 0 → Nat.testBit 12 (ctz 12) = true ∧
      ∀ j < ctz 12, Nat.testBit 12 j = false) ∧
    (∀ j < cto 12, Nat.testBit 12 j = true) ∧
    Nat.testBit 12 (cto 12) = false ∧
    ((12 : Nat) = 2 ^ 32 - 1 → cto 12 = 32)) :=
  ⟨by norm_num, ctz_cto_contract 12 (by norm_num)⟩

/-- C3.  The four software CTZ variants agree on every 32-bit value
(including 0) and each equals the contract value `ctzSpec`: the index of
the lowest set bit, or 32 at zero. -/
theorem ctz_variants_agree (x : Nat) (hx : x < 2 ^ 32) :
    ctz_simple x = ctzSpec x ∧ ctz_bits x = ctzSpec x ∧
    ctz_bsearch x = ctzSpec x ∧ ctz_debruijn x = ctzSpec x ∧
    (x = 0 → ctzSpec x = 32) ∧
    (x ≠ 0 → Nat.testBit x (ctzSpec x) = true ∧
      ∀ j < ctzSpec x, Nat.testBit x j = false) := by
  refine ⟨ctz_simple_correct hx, ctz_bits_correct hx, ctz_bsearch_correct hx,
    ctz_debruijn_correct hx, ?_, ?_⟩
  · intro h
    unfold ctzSpec
    rw [if_pos h]
  · intro hne
    unfold ctzSpec
    rw [if_neg hne]
    exact ⟨tzRef_testBit hne, fun j hj => tzRef_testBit_lt hne hj⟩

theorem ctz_variants_agree_witness :
    (40 : Nat) < 2 ^ 32 ∧
    (ctz_simple 40 = ctzSpec 40 ∧ ctz_bits 40 = ctzSpec 40 ∧
    ctz_bsearch 40 = ctzSpec 40 ∧ ctz_debruijn 40 = ctzSpec 40 ∧
    ((40 : Nat) = 0 → ctzSpec 40 = 32) ∧
    ((40 : Nat) ≠ 0 → Nat.testBit 40 (ctzSpec 40) = true ∧
      ∀ j < ctzSpec 40, Nat.testBit 40 j = false)) :=
  ⟨by norm_num, ctz_variants_agree 40 (by norm_num)⟩

/-- C4.  `solution` fails with the invalid-argument error for every
`N < 1` and produces a value for every `N` in `[1, 2147483647]`. -/
theorem solution_domain_errors (N : Int) :
    (N < 1 → solution N = Except.error "N not a positive integer") ∧
    (1 ≤ N → N ≤ 2147483647 → ∃ g, solution N = Except.ok g) := by
  constructor
  · intro h
    unfold solution
    rw [if_pos h]
  · intro h1 h2
    obtain ⟨g, hg, -, -⟩ := solution_spec_main h1 h2
    exact ⟨g, hg⟩

theorem solution_domain_errors_witness :
    solution 0 = Except.error "N not a positive integer" ∧
    ∃ g, solution 9 = Except.ok g :=
  ⟨(solution_domain_errors 0).1 (by norm_num),
   (solution_domain_errors 9).2 (by norm_num) (by norm_num)⟩

/-- C5.  The literal scenarios from the problem statement. -/
theorem solution_literal_values :
    solution 9 = Except.ok 2 ∧ solution 529 = Except.ok 4 ∧
    solution 20 = Except.ok 1 ∧ solution 15 = Except.ok 0 ∧
    solution 32 = Except.ok 0 ∧ solution 1041 = Except.ok 5 ∧
    solution 2147483647 = Except.ok 0 := by
  refine ⟨?_, ?_, ?_, ?_, ?_, ?_, ?_⟩ <;> rfl

/-- C6.  At every iteration of the loop, after the measured run of
trailing zeros is shifted out the value is still nonzero, and every
measured run length is a genuine enclosed gap of the original input. -/
theorem loop_zero_runs_enclosed (N : Int) (h1 : 1 ≤ N) (h2 : N ≤ 2147483647) :
    ∀ m ∈ loopVals (afterStrip N.toNat),
      m >>> ctz m ≠ 0 ∧ hasGap N.toNat (ctz m) := by
  have hn0 : N.toNat ≠ 0 := by omega
  have hnlt : N.toNat < 2 ^ 32 := by
    have hc : (2147483647 : Nat) < 2 ^ 32 := by norm_num
    omega
  rw [afterStrip_eq hnlt hn0]
  intro m hm
  have hm' := loopVals_mem_le (nextVal N.toNat) m hm
  have hmne : m ≠ 0 := hm'.1
  have hmlt : m < 2 ^ 32 := by
    have := nextVal_lt hn0
    omega
  have hctz : ctz m = tzRef m := ctz_eq_tzRef hmlt hmne
  have hev : nextVal N.toNat % 2 = 0 :=
    oRef_shiftRight_even (N.toNat >>> tzRef N.toNat)
  have hmev : m % 2 = 0 := loopVals_mem_even (nextVal N.toNat) hev m hm
  constructor
  · rw [hctz]
    have := tzRef_shiftRight_odd hmne
    omega
  · rw [hctz]
    have hE : EGaps m (tzRef m) :=
      Or.inl ⟨hmne, tzRef_pos_of_even hmne hmev, rfl⟩
    have hE2 : EGaps (nextVal N.toNat) (tzRef m) :=
      loopVals_mem_EGaps (nextVal N.toNat) hev m hm (tzRef m) hE
    exact (hasGap_iff_EGaps_strip hn0 (tzRef m)).mpr hE2

theorem loop_zero_runs_enclosed_witness :
    (1 : Int) ≤ 9 ∧ (9 : Int) ≤ 2147483647 ∧
    ∀ m ∈ loopVals (afterStrip (9 : Int).toNat),
      m >>> ctz m ≠ 0 ∧ hasGap (9 : Int).toNat (ctz m) :=
  ⟨by norm_num, by norm_num, loop_zero_runs_enclosed 9 (by norm_num) (by norm_num)⟩

/-- C7 (as stated, refuted at `N = 5`): after the initial double-strip
of `solution 5` the value is `2`, whose lowest bit is not 1 and which is
not zero. -/
theorem double_strip_lowest_bit_counterexample :
    ¬ (Nat.testBit (afterStrip (5 : Int).toNat) 0 = true ∨
       afterStrip (5 : Int).toNat = 0) := by
  decide

/-- C7 (amended).  After the initial double-strip, either the value is
zero — exactly when the original number had at most one contiguous block
of set bits — or its lowest bit is a 0 (the value is even; the one that
bounds the upcoming zero-run from below was just shifted out). -/
theorem double_strip_even_or_zero (N : Int) (h1 : 1 ≤ N) (h2 : N ≤ 2147483647) :
    afterStrip N.toNat % 2 = 0 ∧
    (afterStrip N.toNat = 0 ↔ ∃ s l, N.toNat = (2 ^ l - 1) * 2 ^ s) := by
  have hn0 : N.toNat ≠ 0 := by omega
  have hnlt : N.toNat < 2 ^ 32 := by
    have hc : (2147483647 : Nat) < 2 ^ 32 := by norm_num
    omega
  rw [afterStrip_eq hnlt hn0]
  exact ⟨oRef_shiftRight_even _, nextVal_eq_zero_iff hn0⟩

theorem double_strip_even_or_zero_witness :
    (1 : Int) ≤ 5 ∧ (5 : Int) ≤ 2147483647 ∧
    (afterStrip (5 : Int).toNat % 2 = 0 ∧
    (afterStrip (5 : Int).toNat = 0 ↔ ∃ s l, (5 : Int).toNat = (2 ^ l - 1) * 2 ^ s)) :=
  ⟨by norm_num, by norm_num, double_strip_even_or_zero 5 (by norm_num) (by norm_num)⟩

/-- C8.  The loop terminates: on the solver's domain it examines at most
32 values, each iteration's source-level step equals `nextVal`, and the
value strictly decreases every iteration. -/
theorem loop_terminates_bounded (N : Int) (h1 : 1 ≤ N) (h2 : N ≤ 2147483647) :
    (loopVals (afterStrip N.toNat)).length ≤ 32 ∧
    ∀ m ∈ loopVals (afterStrip N.toNat),
      (m >>> ctz m) >>> cto (m >>> ctz m) = nextVal m ∧ nextVal m < m := by
  have hn0 : N.toNat ≠ 0 := by omega
  have hnlt : N.toNat < 2 ^ 32 := by
    have hc : (2147483647 : Nat) < 2 ^ 32 := by norm_num
    omega
  rw [afterStrip_eq hnlt hn0]
  constructor
  · exact loopVals_length 32 _ (Nat.lt_trans (nextVal_lt hn0) hnlt)
  · intro m hm
    have hm' := loopVals_mem_le (nextVal N.toNat) m hm
    have hmlt : m < 2 ^ 32 := by
      have := nextVal_lt hn0
      omega
    exact ⟨sourceStep_eq hmlt hm'.1, nextVal_lt hm'.1⟩

theorem loop_terminates_bounded_witness :
    (1 : Int) ≤ 1041 ∧ (1041 : Int) ≤ 2147483647 ∧
    ((loopVals (afterStrip (1041 : Int).toNat)).length ≤ 32 ∧
    ∀ m ∈ loopVals (afterStrip (1041 : Int).toNat),
      (m >>> ctz m) >>> cto (m >>> ctz m) = nextVal m ∧ nextVal m < m) :=
  ⟨by norm_num, by norm_num, loop_terminates_bounded 1041 (by norm_num) (by norm_num)⟩

/-- C9.  Every input whose binary representation has at most one
contiguous run of one bits (a block `2^l - 1` shifted by `s`) yields 0. -/
theorem solution_one_block_zero (N : Int) (h1 : 1 ≤ N) (h2 : N ≤ 2147483647)
    (hb : ∃ s l, N.toNat = (2 ^ l - 1) * 2 ^ s) :
    solution N = Except.ok 0 := by
  have hn0 : N.toNat ≠ 0 := by omega
  rw [solution_eval h1 h2, (nextVal_eq_zero_iff hn0).mpr hb, gapGo_zero]

theorem solution_one_block_zero_witness :
    (1 : Int) ≤ 32 ∧ (32 : Int) ≤ 2147483647 ∧
    (∃ s l, (32 : Int).toNat = (2 ^ l - 1) * 2 ^ s) ∧
    solution 32 = Except.ok 0 :=
  ⟨by norm_num, by norm_num, ⟨5, 1, by rfl⟩,
   solution_one_block_zero 32 (by norm_num) (by norm_num) ⟨5, 1, by rfl⟩⟩

/-- C10.  During `solution N` on the valid domain, every argument passed
directly to `ctz` is nonzero, and every argument `a` passed to `cto` has
nonzero 32-bit complement (bit 31 of `~a` is set, since `a < 2^31`): the
zero-sentinel case of the CTZ contract is unreachable inside the
solver. -/
theorem ctz_args_nonzero (N : Int) (h1 : 1 ≤ N) (h2 : N ≤ 2147483647) :
    (∀ a ∈ solutionCtzArgs N, a ≠ 0) ∧
    (∀ a ∈ solutionCtoArgs N, a ^^^ (2 ^ 32 - 1) ≠ 0 ∧
      Nat.testBit (a ^^^ (2 ^ 32 - 1)) 31 = true) := by
  have hn1 : 1 ≤ N.toNat := by omega
  have hlt31 : N.toNat < 2 ^ 31 := by
    have hc : (2147483647 : Nat) < 2 ^ 31 := by norm_num
    omega
  have hstrip_le : afterStrip N.toNat ≤ N.toNat :=
    Nat.le_trans (shiftRight_le _ _) (shiftRight_le _ _)
  constructor
  · intro a ha
    unfold solutionCtzArgs at ha
    rw [if_neg (by omega : ¬ N < 1)] at ha
    rcases List.mem_cons.mp ha with rfl | ha2
    · omega
    · exact (gapLoopCtzArgs_mem 32 _ a ha2).1
  · intro a ha
    unfold solutionCtoArgs at ha
    rw [if_neg (by omega : ¬ N < 1)] at ha
    have halt : a < 2 ^ 31 := by
      rcases List.mem_cons.mp ha with rfl | ha2
      · exact Nat.lt_of_le_of_lt (shiftRight_le _ _) hlt31
      · have h3 := gapLoopCtoArgs_mem 32 (afterStrip N.toNat) a ha2
        omega
    have hbig : (2 : Nat) ^ 31 < 2 ^ 32 - 1 := by norm_num
    constructor
    · intro h0
      have := Nat.xor_eq_zero.mp h0
      omega
    · rw [Nat.testBit_xor, Nat.testBit_two_pow_sub_one]
      have hb : Nat.testBit a 31 = false := Nat.testBit_lt_two_pow halt
      simp [hb]

theorem ctz_args_nonzero_witness :
    (1 : Int) ≤ 9 ∧ (9 : Int) ≤ 2147483647 ∧
    ((∀ a ∈ solutionCtzArgs 9, a ≠ 0) ∧
    (∀ a ∈ solutionCtoArgs 9, a ^^^ (2 ^ 32 - 1) ≠ 0 ∧
      Nat.testBit (a ^^^ (2 ^ 32 - 1)) 31 = true)) :=
  ⟨by norm_num, by norm_num, ctz_args_nonzero 9 (by norm_num) (by norm_num)⟩

end BinaryGap
